import Mathlib

/-!
Verification of the capacity-sizing core of `fog-vmalloc`
(`src/python/trivedi/percentileTrivedi.py`).

The Python source is shallowly embedded below.  The purely rational
arithmetic of the program (the Erlang-C primitives, the average
response-time model and the capacity search) is embedded over `ℚ`;
the response-time CDF, which involves the exponential function, is
embedded over `ℝ`.  The unbounded `while` loop of `compute` is
embedded with explicit fuel: `compute lam mu r tol fuel = some m`
states that the loop, started as in the source, returns `m` within
`fuel` iterations, and divergence of the loop is `∀ fuel, ... = none`.
Fallible arithmetic (Python `ZeroDivisionError`) in the CDF is
embedded with `Option`, `none` marking the raised exception.
-/

/-- Embedding of `float_le(x, y, tol)`:
`return (x == y) or (x-y) <= max(abs(x), abs(y))*tol`. -/
def float_le (x y tol : ℚ) : Prop :=
  x = y ∨ x - y ≤ max |x| |y| * tol

instance (x y tol : ℚ) : Decidable (float_le x y tol) :=
  inferInstanceAs (Decidable (x = y ∨ x - y ≤ max |x| |y| * tol))

/-- Accumulation `sum = 0; for x in range(0, c): sum += f(x)`, the loop
shape used by `p0` and `pi0` for their normalization sums. -/
def loopSum {K : Type} [LinearOrderedField K] (f : ℕ → K) : ℕ → K
  | 0 => 0
  | n + 1 => loopSum f n + f n

/-- Embedding of `p0(lam, mu, c)` from the source: the loop accumulates
`math.pow(lam/mu, x) * math.factorial(x)` for `x` in `range(0, c)` (note:
the source multiplies `f1*f2`, it does not divide by the factorial), then
adds `(1/c!) * (lam/mu)^c * (c*mu)/(c*mu - lam)` and returns the
reciprocal of the sum.  Polymorphic so it can be used over `ℚ` and `ℝ`. -/
def p0 {K : Type} [LinearOrderedField K] (lam mu : K) (c : ℕ) : K :=
  let s : K := loopSum (fun x => (lam / mu) ^ x * (x.factorial : K)) c
    + 1 / (c.factorial : K) * (lam / mu) ^ c * ((c * mu) / (c * mu - lam))
  1 / s

/-- The normalization that the spec prescribes for
`ProbabilityZeroInSystem` (§4.1): `1 / ( Σ_{k<m} (λ/μ)^k / k!  +
(λ/μ)^m / m! · (mμ)/(mμ−λ) )`.  This is NOT the source's `p0`: the
source multiplies each summand by the factorial instead of dividing. -/
def p0_spec {K : Type} [LinearOrderedField K] (lam mu : K) (c : ℕ) : K :=
  1 / (loopSum (fun x => (lam / mu) ^ x / (x.factorial : K)) c
    + (lam / mu) ^ c / (c.factorial : K) * ((c * mu) / (c * mu - lam)))

/-- Embedding of `pQueue(lam, mu, c)`:
`1 - (c*(lam/mu)^c) / (c! * (c - lam/mu)) * p0(lam, mu, c)`. -/
def pQueue {K : Type} [LinearOrderedField K] (lam mu : K) (c : ℕ) : K :=
  1 - (c * (lam / mu) ^ c) / ((c.factorial : K) * (c - lam / mu)) * p0 lam mu c

/-- Embedding of `pi0(lam, mu, m)`:
`rho = lam/(m*mu)`; `part1 = (m*rho)^m/m! * (1/(1-rho))`;
`part2 = Σ_{k<m} (m*rho)^k/k!`; returns `1/(part1+part2)`. -/
def pi0 (lam mu : ℚ) (m : ℕ) : ℚ :=
  let rho : ℚ := lam / (m * mu)
  let part1 : ℚ := (m * rho) ^ m / (m.factorial : ℚ) * (1 / (1 - rho))
  let part2 : ℚ := loopSum (fun k => (m * rho) ^ k / (k.factorial : ℚ)) m
  1 / (part1 + part2)

/-- Embedding of `Pm(lam, mu, m)`:
`(m*rho)^m / (m! * (1-rho)) * pi0(lam, mu, m)` with `rho = lam/(m*mu)`. -/
def Pm (lam mu : ℚ) (m : ℕ) : ℚ :=
  let rho : ℚ := lam / (m * mu)
  (m * rho) ^ m / ((m.factorial : ℚ) * (1 - rho)) * pi0 lam mu m

/-- Embedding of `avgRespTime_MMC(lam, mu, m)`: for `m == 1` the closed
form `(1/mu)/(1-rho)`; otherwise `avgK = m*rho + rho/(1-rho)*Pm` and
`avgK/lam`, with `rho = lam/(m*mu)`. -/
def avgRespTime_MMC (lam mu : ℚ) (m : ℕ) : ℚ :=
  let rho : ℚ := lam / (m * mu)
  if m = 1 then (1 / mu) / (1 - rho)
  else (m * rho + rho / (1 - rho) * Pm lam mu m) / lam

/-- One unrolling of the `while True` loop of `compute`, with explicit
fuel.  The counter `m` is incremented, unstable configurations
(`lam/(m*mu) >= 1`) are skipped, and the loop breaks at the first `m`
whose average response time passes `float_le(val, r, tol)`. -/
def computeFrom (lam mu r tol : ℚ) : ℕ → ℕ → Option ℕ
  | 0, _ => none
  | fuel + 1, m =>
    if 1 ≤ lam / ((m + 1 : ℕ) * mu) then computeFrom lam mu r tol fuel (m + 1)
    else if float_le (avgRespTime_MMC lam mu (m + 1)) r tol then some (m + 1)
    else computeFrom lam mu r tol fuel (m + 1)

/-- Embedding of `compute(lam, mu, r, tol)`: the loop starts with
`m = 0` and increments before each test. -/
def compute (lam mu r tol : ℚ) (fuel : ℕ) : Option ℕ :=
  computeFrom lam mu r tol fuel 0

namespace trivedi

/-- Embedding of `main(lam, mu, r, tol)`: if `r < 1/mu` it returns the
sentinel `-1` (before any call to `compute`); otherwise it returns the
result of `compute`.  (Namespaced because a bare `main` is reserved by
Lean for program entry points.) -/
def main (lam mu r tol : ℚ) (fuel : ℕ) : Option ℤ :=
  if r < 1 / mu then some (-1)
  else (compute lam mu r tol fuel).map fun n => (n : ℤ)

end trivedi

/-- Acceptance predicate of one iteration of the search: the
configuration with `m` servers is stable and its average response time
passes the tolerance test against `r`. -/
def accepts (lam mu r tol : ℚ) (m : ℕ) : Prop :=
  ¬ 1 ≤ lam / (m * mu) ∧ float_le (avgRespTime_MMC lam mu m) r tol

instance (lam mu r tol : ℚ) (m : ℕ) : Decidable (accepts lam mu r tol m) :=
  inferInstanceAs (Decidable (_ ∧ _))

open scoped Classical in
/-- Embedding of `responseTimeCDF(lam, mu, c, t)` over `ℝ`.  Python
raises `ZeroDivisionError` on float division by zero; a raised exception
is modelled by `none`.  The guard line `rho = lam/(mu*c)` itself divides
by `mu*c`, and in the main branch `f1` and `f3` divide by
`lam-(c-1)*mu`; every other division reached in the main branch (inside
`pQueue` and `p0`, and by factorials) has a nonzero denominator once
`0 < rho < 1` holds, so the two `none` cases are exactly the places the
Python code can raise.  The unfeasible branch returns `0`. -/
noncomputable def responseTimeCDF (lam mu : ℝ) (c : ℕ) (t : ℝ) : Option ℝ :=
  if mu * c = 0 then none
  else
    let rho : ℝ := lam / (mu * c)
    if rho ≤ 0 ∨ 1 ≤ rho then some 0
    else if lam - ((c : ℝ) - 1) * mu = 0 then none
    else
      let f1 : ℝ := (lam - c * mu + mu * pQueue lam mu c) / (lam - ((c : ℝ) - 1) * mu)
      let f2 : ℝ := 1 - Real.exp (-mu * t)
      let f3 : ℝ := (1 - pQueue lam mu c) * mu / (lam - ((c : ℝ) - 1) * mu)
      let f4 : ℝ := 1 - Real.exp (-(c * mu - lam) * t)
      some (f1 * f2 + f3 * f4)

/-- Derived quantity used in the proofs below: the partial exponential
series `Σ_{k<m} (λ/μ)^k / k!`, which is the `part2` sum of `pi0` after
the simplification `m·ρ = λ/μ`. -/
def erlS (lam mu : ℚ) (m : ℕ) : ℚ :=
  loopSum (fun k => (lam / mu) ^ k / (k.factorial : ℚ)) m

/-- Derived quantity used in the proofs below: the Erlang term
`(λ/μ)^m · m / (m! · (m − λ/μ))`, which is the `part1` term of `pi0`
after the simplifications `m·ρ = λ/μ` and `1/(1−ρ) = m/(m−λ/μ)`. -/
def erlP (lam mu : ℚ) (m : ℕ) : ℚ :=
  (lam / mu) ^ m * m / ((m.factorial : ℚ) * (m - lam / mu))

lemma loopSum_succ {K : Type} [LinearOrderedField K] (f : ℕ → K) (n : ℕ) :
    loopSum f (n + 1) = loopSum f n + f n := rfl

lemma loopSum_pos {K : Type} [LinearOrderedField K] (f : ℕ → K)
    (h : ∀ k, 0 < f k) : ∀ n, 1 ≤ n → 0 < loopSum f n
  | 1, _ => by simpa [loopSum] using h 0
  | n + 2, _ => by
    have ih := loopSum_pos f h (n + 1) (by omega)
    simpa [loopSum_succ] using add_pos ih (h (n + 1))

/-- A plain `x ≤ y` always passes the tolerance test when `tol ≥ 0`. -/
lemma float_le_of_le (x y tol : ℚ) (h : x ≤ y) (htol : 0 ≤ tol) :
    float_le x y tol := by
  right
  have hmax : 0 ≤ max |x| |y| := le_max_of_le_left (abs_nonneg x)
  have := mul_nonneg hmax htol
  linarith

/-- With tolerance `0` the tolerance test is exactly `x ≤ y`. -/
lemma float_le_zero_iff (x y : ℚ) : float_le x y 0 ↔ x ≤ y := by
  unfold float_le
  constructor
  · rintro (rfl | h)
    · exact le_refl x
    · rw [mul_zero] at h
      linarith
  · intro h
    right
    rw [mul_zero]
    linarith

/-- If the fueled loop returns `some m` from counter `m0`, then `m` is
past `m0`, `m` is accepted, and no count strictly between `m0` and `m`
is accepted: the loop returns the first accepted count. -/
lemma computeFrom_sound (lam mu r tol : ℚ) :
    ∀ fuel m0 m : ℕ, computeFrom lam mu r tol fuel m0 = some m →
      m0 < m ∧ accepts lam mu r tol m ∧
        ∀ k, m0 < k → k < m → ¬ accepts lam mu r tol k := by
  intro fuel
  induction fuel with
  | zero => intro m0 m h; simp [computeFrom] at h
  | succ fuel ih =>
    intro m0 m h
    rw [computeFrom] at h
    by_cases h1 : 1 ≤ lam / ((m0 + 1 : ℕ) * mu)
    · rw [if_pos h1] at h
      obtain ⟨hlt, hacc, hmin⟩ := ih (m0 + 1) m h
      refine ⟨by omega, hacc, fun k hk1 hk2 => ?_⟩
      rcases Nat.lt_or_ge (m0 + 1) k with hgt | hle
      · exact hmin k hgt hk2
      · have hk : k = m0 + 1 := by omega
        subst hk
        exact fun hc => hc.1 h1
    · rw [if_neg h1] at h
      by_cases h2 : float_le (avgRespTime_MMC lam mu (m0 + 1)) r tol
      · rw [if_pos h2] at h
        have hm : m = m0 + 1 := by
          simpa using h.symm
        subst hm
        exact ⟨by omega, ⟨h1, h2⟩, fun k hk1 hk2 => absurd (by omega : ¬ (m0 < k ∧ k < m0 + 1)) (by simp [hk1, hk2])⟩
      · rw [if_neg h2] at h
        obtain ⟨hlt, hacc, hmin⟩ := ih (m0 + 1) m h
        refine ⟨by omega, hacc, fun k hk1 hk2 => ?_⟩
        rcases Nat.lt_or_ge (m0 + 1) k with hgt | hle
        · exact hmin k hgt hk2
        · have hk : k = m0 + 1 := by omega
          subst hk
          exact fun hc => h2 hc.2

/-- Claim C10: with tolerance zero, `float_le` coincides with ordinary
less-than-or-equal: `float_le x y 0` holds iff `x ≤ y`. -/
theorem C10_float_le_zero_tol (x y : ℚ) : float_le x y 0 ↔ x ≤ y :=
  float_le_zero_iff x y

/-- Claim C7 counterexample: at `r = 1`, `tol = 0` (a non-negative
tolerance), the comparison ACCEPTS the value `r*(1+2*tol) = r`, whereas
the claim asserts it is rejected for every non-negative tolerance. -/
theorem C7_counterexample : float_le (1 * (1 + 2 * 0)) 1 0 := by
  left
  norm_num

/-- Claim C7 (amended: for every `r > 0` and every POSITIVE tolerance
`tol < 1/2`): `float_le` accepts a value equal to `r*(1+tol)` exactly and
rejects a value equal to `r*(1+2*tol)`.  At `tol = 0` both probe values
collapse to `r` itself and are accepted, so positivity is necessary. -/
theorem C7_tolerance_boundary (r tol : ℚ) (hr : 0 < r) (ht : 0 < tol)
    (ht2 : tol < 1 / 2) :
    float_le (r * (1 + tol)) r tol ∧ ¬ float_le (r * (1 + 2 * tol)) r tol := by
  have hx1 : |r * (1 + tol)| = r * (1 + tol) := abs_of_pos (by nlinarith)
  have hx2 : |r * (1 + 2 * tol)| = r * (1 + 2 * tol) := abs_of_pos (by nlinarith)
  have hy : |r| = r := abs_of_pos hr
  constructor
  · right
    rw [hx1, hy, max_eq_left (by nlinarith)]
    nlinarith [mul_pos (mul_pos hr ht) ht]
  · rintro (heq | hle)
    · nlinarith
    · rw [hx2, hy, max_eq_left (by nlinarith)] at hle
      nlinarith [mul_pos (mul_pos hr ht) (by linarith : (0:ℚ) < 1 - 2 * tol)]

/-- Witness for C7: the amended boundary behaviour at `r = 1`,
`tol = 1/4`. -/
theorem C7_tolerance_boundary_witness :
    (0:ℚ) < 1 ∧ (0:ℚ) < 1 / 4 ∧ (1:ℚ) / 4 < 1 / 2 ∧
      (float_le (1 * (1 + 1 / 4)) 1 (1 / 4) ∧
        ¬ float_le (1 * (1 + 2 * (1 / 4))) 1 (1 / 4)) :=
  ⟨by norm_num, by norm_num, by norm_num,
    C7_tolerance_boundary 1 (1 / 4) (by norm_num) (by norm_num) (by norm_num)⟩

/-- Claim C2: whenever `r < 1/mu` the entry point returns the sentinel
`-1` (a returned value, `some`, not a crash), and it does so for EVERY
fuel value — in particular for fuel `0`, where the capacity search
cannot perform even one iteration (`compute` at fuel `0` is `none`), so
the sentinel is produced without invoking the search and hence without
evaluating the response-time model, which is only called inside the
search loop; and the result is never a server count `↑n`. -/
theorem C2_infeasible_sentinel (lam mu r tol : ℚ)
    (hl : 0 < lam) (hm : 0 < mu) (htol : 0 ≤ tol) (hr : r < 1 / mu) :
    (∀ fuel, trivedi.main lam mu r tol fuel = some (-1)) ∧
      compute lam mu r tol 0 = none ∧
      ∀ fuel (n : ℕ), trivedi.main lam mu r tol fuel ≠ some (n : ℤ) := by
  refine ⟨fun fuel => by rw [trivedi.main, if_pos hr], rfl, fun fuel n h => ?_⟩
  rw [trivedi.main, if_pos hr] at h
  have : (-1 : ℤ) = (n : ℤ) := by simpa using h
  omega

/-- Witness for C2: the spec's concrete scenario `λ=1, μ=10, r=1/20`
(with `tol = 0`). -/
theorem C2_infeasible_sentinel_witness :
    (0:ℚ) < 1 ∧ (0:ℚ) < 10 ∧ (0:ℚ) ≤ 0 ∧ (1:ℚ) / 20 < 1 / 10 ∧
      ((∀ fuel, trivedi.main 1 10 (1 / 20) 0 fuel = some (-1)) ∧
        compute 1 10 (1 / 20) 0 0 = none ∧
        ∀ fuel (n : ℕ), trivedi.main 1 10 (1 / 20) 0 fuel ≠ some (n : ℤ)) :=
  ⟨by norm_num, by norm_num, le_refl 0, by norm_num,
    C2_infeasible_sentinel 1 10 (1 / 20) 0 (by norm_num) (by norm_num)
      (le_refl 0) (by norm_num)⟩

/-- Claim C1: if the capacity search returns `m`, then `m ≥ 1`, the
configuration `m` is stable (`λ/(mμ) < 1`), its average response time
passes `float_le (· ≤ r within tol)`, and no smaller `k ≥ 1` satisfies
both conditions: `m` is the least such integer. -/
theorem C1_compute_returns_least (lam mu r tol : ℚ) (fuel m : ℕ)
    (hl : 0 < lam) (hm : 0 < mu) (hr : 0 < r) (htol : 0 ≤ tol)
    (hfeas : 1 / mu ≤ r) (h : compute lam mu r tol fuel = some m) :
    1 ≤ m ∧ lam / (m * mu) < 1 ∧ float_le (avgRespTime_MMC lam mu m) r tol ∧
      ∀ k, 1 ≤ k → k < m →
        ¬ (lam / (k * mu) < 1 ∧ float_le (avgRespTime_MMC lam mu k) r tol) := by
  obtain ⟨h0, ⟨hstab, hacc⟩, hmin⟩ := computeFrom_sound lam mu r tol fuel 0 m h
  refine ⟨h0, not_le.mp hstab, hacc, fun k hk1 hk2 hc => ?_⟩
  exact hmin k hk1 hk2 ⟨not_le.mpr hc.1, hc.2⟩

/-- Witness for C1: with `λ=1, μ=2, r=1, tol=0` the search returns
`m = 1` (the spec's third concrete scenario), and the theorem applies. -/
theorem C1_compute_returns_least_witness :
    compute 1 2 1 0 1 = some 1 ∧
      (1 ≤ 1 ∧ (1:ℚ) / ((1:ℕ) * 2) < 1 ∧ float_le (avgRespTime_MMC 1 2 1) 1 0 ∧
        ∀ k : ℕ, 1 ≤ k → k < 1 →
          ¬ ((1:ℚ) / ((k:ℚ) * 2) < 1 ∧ float_le (avgRespTime_MMC 1 2 k) 1 0)) := by
  have hc : compute 1 2 1 0 1 = some 1 := by
    norm_num [compute, computeFrom, avgRespTime_MMC, float_le]
  exact ⟨hc, C1_compute_returns_least 1 2 1 0 1 1 (by norm_num) (by norm_num)
    (by norm_num) (le_refl 0) (by norm_num) hc⟩

/-- Claim C9: with `λ=5, μ=2` the counts `m=1` and `m=2` are unstable
(`λ/(mμ) ≥ 1`, so the search skips them without evaluating the model),
the average response time at `m=3` is the finite positive rational
`107/89`, and the entry point with target `r = 107/89` and
`tol = 1/1000000` returns exactly `3`. -/
theorem C9_concrete_scenario :
    1 ≤ (5:ℚ) / ((1:ℕ) * 2) ∧ 1 ≤ (5:ℚ) / ((2:ℕ) * 2) ∧
      avgRespTime_MMC 5 2 3 = 107 / 89 ∧ (0:ℚ) < 107 / 89 ∧
      trivedi.main 5 2 (107 / 89) (1 / 1000000) 3 = some 3 := by
  refine ⟨by norm_num, by norm_num, ?_, by norm_num, ?_⟩
  · norm_num [avgRespTime_MMC, Pm, pi0, loopSum, Nat.factorial]
  · norm_num [trivedi.main, compute, computeFrom, avgRespTime_MMC, Pm, pi0,
      loopSum, Nat.factorial, float_le]

/-- Claim C3 (code bug): at `λ=1, μ=1, m=3` the source's `p0` yields
`4/17`, whereas the standard M/M/m normalization prescribed by the spec
yields `4/11`: the source multiplies each summand `(λ/μ)^k` by `k!`
(`val = f1*f2`) instead of dividing by it. -/
theorem C3_p0_deviates_from_spec :
    p0 (1:ℚ) 1 3 = 4 / 17 ∧ p0_spec (1:ℚ) 1 3 = 4 / 11 ∧
      p0 (1:ℚ) 1 3 ≠ p0_spec (1:ℚ) 1 3 := by
  norm_num [p0, p0_spec, loopSum, Nat.factorial]

/-- Claim C4 counterexample: the two empty-system normalizations
disagree at `λ=1, μ=1, m=3` (`p0 = 4/17` but `pi0 = 4/11`), so they are
not equal on the whole stable range. -/
theorem C4_counterexample : p0 (1:ℚ) 1 3 ≠ pi0 1 1 3 := by
  norm_num [p0, pi0, loopSum, Nat.factorial]

/-- Claim C4 (amended): the two normalizations agree for `m = 1` and
`m = 2` — the factorials `0! = 1! = 1` hide the `f1*f2` slip there —
and disagree from `m = 3` on. -/
theorem C4_normalizations_agree_up_to_two (lam mu : ℚ) (m : ℕ)
    (hl : 0 < lam) (hm : 0 < mu) (h1 : 1 ≤ m) (h2 : m ≤ 2)
    (hst : lam < m * mu) : p0 lam mu m = pi0 lam mu m := by
  have hmu : mu ≠ 0 := ne_of_gt hm
  interval_cases m
  · have hd : (1:ℚ) * mu - lam ≠ 0 := by
      push_cast at hst ⊢
      linarith
    have hrho : 1 - lam / ((1:ℚ) * mu) ≠ 0 := by
      rw [one_mul] at hd ⊢
      rw [sub_ne_zero] at hd ⊢
      intro h
      exact hd (by field_simp at h; linarith)
    simp only [p0, pi0, loopSum, Nat.factorial]
    push_cast
    congr 1
    rw [one_mul] at hd hrho
    field_simp
  · have hd : (2:ℚ) * mu - lam ≠ 0 := by
      push_cast at hst ⊢
      linarith
    have h2mu : (2:ℚ) * mu ≠ 0 := by positivity
    have hrho : 1 - lam / ((2:ℚ) * mu) ≠ 0 := by
      rw [sub_ne_zero]
      intro h
      apply hd
      field_simp at h
      linarith
    simp only [p0, pi0, loopSum, Nat.factorial]
    push_cast
    congr 1
    field_simp
    ring

/-- Witness for C4's amended statement: `p0` and `pi0` agree at
`λ=1, μ=1, m=2`. -/
theorem C4_normalizations_agree_up_to_two_witness :
    (0:ℚ) < 1 ∧ (1:ℚ) < 2 * 1 ∧ p0 (1:ℚ) 1 2 = pi0 1 1 2 := by
  refine ⟨by norm_num, by norm_num, ?_⟩
  have h := C4_normalizations_agree_up_to_two 1 1 2 (by norm_num) (by norm_num)
    (by norm_num) (by norm_num) (by push_cast; norm_num)
  simpa using h

section mono

variable (lam mu : ℚ) (m : ℕ)

lemma pi0_eq (hm : 0 < mu) (h1 : 1 ≤ m) (hst : lam < m * mu) :
    pi0 lam mu m = 1 / (erlP lam mu m + erlS lam mu m) := by
  have hm0 : (0:ℚ) < m := by exact_mod_cast Nat.pos_of_ne_zero (by omega)
  have hmu : mu ≠ 0 := ne_of_gt hm
  have hmm : (m:ℚ) * mu ≠ 0 := by positivity
  have hden : (m:ℚ) * mu - lam ≠ 0 := ne_of_gt (by linarith)
  have hrho : 1 - lam / ((m:ℚ) * mu) ≠ 0 := by
    rw [sub_ne_zero]
    intro h
    apply hden
    field_simp at h
    linarith
  have hca : (m:ℚ) - lam / mu ≠ 0 := by
    rw [sub_ne_zero]
    intro h
    apply hden
    field_simp at h
    linarith
  have hF : ((m.factorial : ℚ)) ≠ 0 := by
    exact_mod_cast (Nat.factorial_pos m).ne'
  have key : ((m:ℚ) * (lam / ((m:ℚ) * mu))) = lam / mu := by
    field_simp
    ring
  simp only [pi0, erlP, erlS]
  rw [key]
  congr 2
  field_simp
  ring

end mono

section mono2

variable (lam mu : ℚ) (m : ℕ)

lemma Pm_eq (hm : 0 < mu) (h1 : 1 ≤ m) (hst : lam < m * mu) :
    Pm lam mu m = erlP lam mu m / (erlP lam mu m + erlS lam mu m) := by
  have hm0 : (0:ℚ) < m := by exact_mod_cast Nat.pos_of_ne_zero (by omega)
  have hmu : mu ≠ 0 := ne_of_gt hm
  have hden : (m:ℚ) * mu - lam ≠ 0 := ne_of_gt (by linarith)
  have hca : (m:ℚ) - lam / mu ≠ 0 := by
    rw [sub_ne_zero]
    intro h
    apply hden
    field_simp at h
    linarith
  have hF : ((m.factorial : ℚ)) ≠ 0 := by
    exact_mod_cast (Nat.factorial_pos m).ne'
  have key : ((m:ℚ) * (lam / ((m:ℚ) * mu))) = lam / mu := by
    field_simp
    ring
  rw [Pm, pi0_eq lam mu m hm h1 hst, key, div_eq_mul_one_div (erlP lam mu m)]
  congr 1
  rw [erlP]
  have hrho : 1 - lam / ((m:ℚ) * mu) ≠ 0 := by
    rw [sub_ne_zero]
    intro h
    apply hden
    field_simp at h
    linarith
  field_simp
  ring

lemma erlS_pos (hl : 0 < lam) (hm : 0 < mu) (h1 : 1 ≤ m) :
    0 < erlS lam mu m := by
  apply loopSum_pos _ _ _ h1
  intro k
  have ha : 0 < lam / mu := div_pos hl hm
  have : (0:ℚ) < (k.factorial : ℚ) := by exact_mod_cast Nat.factorial_pos k
  positivity

lemma erlP_pos (hl : 0 < lam) (hm : 0 < mu) (h1 : 1 ≤ m) (hst : lam < m * mu) :
    0 < erlP lam mu m := by
  have hm0 : (0:ℚ) < m := by exact_mod_cast Nat.pos_of_ne_zero (by omega)
  have ha : 0 < lam / mu := div_pos hl hm
  have hca : 0 < (m:ℚ) - lam / mu := by
    rw [sub_pos, div_lt_iff hm]
    linarith
  have hF : (0:ℚ) < (m.factorial : ℚ) := by exact_mod_cast Nat.factorial_pos m
  rw [erlP]
  positivity

lemma Pm_pos (hl : 0 < lam) (hm : 0 < mu) (h1 : 1 ≤ m) (hst : lam < m * mu) :
    0 < Pm lam mu m := by
  rw [Pm_eq lam mu m hm h1 hst]
  have hP := erlP_pos lam mu m hl hm h1 hst
  have hS := erlS_pos lam mu m hl hm h1
  positivity

lemma Pm_le_one (hl : 0 < lam) (hm : 0 < mu) (h1 : 1 ≤ m) (hst : lam < m * mu) :
    Pm lam mu m ≤ 1 := by
  rw [Pm_eq lam mu m hm h1 hst]
  have hP := erlP_pos lam mu m hl hm h1 hst
  have hS := erlS_pos lam mu m hl hm h1
  rw [div_le_one (by linarith)]
  linarith

lemma avg_eq_W (hl : 0 < lam) (hm : 0 < mu) (h1 : 1 ≤ m) (hst : lam < m * mu) :
    avgRespTime_MMC lam mu m = 1 / mu + Pm lam mu m / (m * mu - lam) := by
  have hm0 : (0:ℚ) < m := by exact_mod_cast Nat.pos_of_ne_zero (by omega)
  have hmu : mu ≠ 0 := ne_of_gt hm
  have hlam : lam ≠ 0 := ne_of_gt hl
  have hden : (m:ℚ) * mu - lam ≠ 0 := ne_of_gt (by linarith)
  have hrho : 1 - lam / ((m:ℚ) * mu) ≠ 0 := by
    rw [sub_ne_zero]
    intro h
    apply hden
    field_simp at h
    linarith
  rcases eq_or_ne m 1 with rfl | hm1
  · -- m = 1 : the single-server branch agrees with the general formula
    have hS : erlS lam mu 1 = 1 := by
      simp [erlS, loopSum]
    have hP : erlP lam mu 1 = (lam / mu) / (1 - lam / mu) := by
      rw [erlP]
      push_cast
      rw [pow_one]
      field_simp
    have hca : (1:ℚ) - lam / mu ≠ 0 := by
      rw [sub_ne_zero]
      intro h
      apply hden
      push_cast
      field_simp at h ⊢
      linarith
    have hden1 : mu - lam ≠ 0 := by
      push_cast at hden
      simpa using hden
    have hPm1 : Pm lam mu 1 = lam / mu := by
      rw [Pm_eq lam mu 1 hm le_rfl hst, hS, hP]
      have h2 : (lam / mu) / (1 - lam / mu) + 1 = 1 / (1 - lam / mu) := by
        field_simp
      rw [h2]
      field_simp
    rw [avgRespTime_MMC, if_pos rfl, hPm1]
    push_cast
    field_simp
  · rw [avgRespTime_MMC, if_neg hm1]
    field_simp
    ring

end mono2

lemma erl_key_ineq (a c x s F : ℚ) (ha : 0 < a) (hac : a < c) (hs : 0 < s)
    (hx : 0 < x) (hF : 0 < F) :
    x * a * (c + 1) / ((c + 1) * F * ((c + 1) - a)) * s
      ≤ x * c / (F * (c - a)) * (s + x / F) := by
  have hc : 0 < c := lt_trans ha hac
  have h1a : 0 < c + 1 - a := by linarith
  have hca : 0 < c - a := by linarith
  have hsx : s + x / F = (s * F + x) / F := by field_simp
  rw [hsx, div_mul_div_comm, div_mul_eq_mul_div,
    div_le_div_iff (by positivity) (by positivity)]
  have key : a * (s * F) * (c - a) ≤ c * (s * F + x) * (c + 1 - a) := by
    nlinarith [mul_pos hs hF, mul_nonneg (mul_pos hs hF).le (sq_nonneg (c - a)),
      mul_pos (mul_pos hs hF) hc, mul_pos (mul_pos hc hx) h1a]
  calc x * a * (c + 1) * s * (F * (c - a) * F)
      = (x * F * (c + 1)) * (a * (s * F) * (c - a)) := by ring
    _ ≤ (x * F * (c + 1)) * (c * (s * F + x) * (c + 1 - a)) :=
        mul_le_mul_of_nonneg_left key (by positivity)
    _ = x * c * (s * F + x) * ((c + 1) * F * ((c + 1) - a)) := by ring

section mono3

variable (lam mu : ℚ) (m : ℕ)

lemma erl_cross (hl : 0 < lam) (hm : 0 < mu) (h1 : 1 ≤ m) (hst : lam < m * mu) :
    erlP lam mu (m + 1) * erlS lam mu m ≤ erlP lam mu m * erlS lam mu (m + 1) := by
  have hm0 : (0:ℚ) < m := by exact_mod_cast Nat.pos_of_ne_zero (by omega)
  have ha : 0 < lam / mu := div_pos hl hm
  have hac : lam / mu < (m:ℚ) := by
    rw [div_lt_iff hm]
    linarith
  have hs := erlS_pos lam mu m hl hm h1
  have hx : 0 < (lam / mu) ^ m := pow_pos ha m
  have hF : (0:ℚ) < (m.factorial : ℚ) := by exact_mod_cast Nat.factorial_pos m
  have e1 : erlP lam mu (m + 1)
      = (lam / mu) ^ m * (lam / mu) * ((m:ℚ) + 1)
        / (((m:ℚ) + 1) * (m.factorial : ℚ) * (((m:ℚ) + 1) - lam / mu)) := by
    rw [erlP, pow_succ, Nat.factorial_succ]
    push_cast
    ring_nf
  have e2 : erlS lam mu (m + 1) = erlS lam mu m + (lam / mu) ^ m / (m.factorial : ℚ) := rfl
  have e3 : erlP lam mu m
      = (lam / mu) ^ m * (m:ℚ) / ((m.factorial : ℚ) * ((m:ℚ) - lam / mu)) := rfl
  rw [e1, e2, e3]
  exact erl_key_ineq (lam / mu) (m:ℚ) ((lam / mu) ^ m) (erlS lam mu m)
    (m.factorial : ℚ) ha hac hs hx hF

lemma Pm_succ_le (hl : 0 < lam) (hm : 0 < mu) (h1 : 1 ≤ m) (hst : lam < m * mu) :
    Pm lam mu (m + 1) ≤ Pm lam mu m := by
  have hst' : lam < ((m + 1 : ℕ):ℚ) * mu := by
    push_cast
    nlinarith
  rw [Pm_eq lam mu m hm h1 hst, Pm_eq lam mu (m + 1) hm (by omega) hst']
  have hP := erlP_pos lam mu m hl hm h1 hst
  have hS := erlS_pos lam mu m hl hm h1
  have hP' := erlP_pos lam mu (m + 1) hl hm (by omega) hst'
  have hS' := erlS_pos lam mu (m + 1) hl hm (by omega)
  rw [div_le_div_iff (by linarith) (by linarith)]
  nlinarith [erl_cross lam mu m hl hm h1 hst]

end mono3

section mono4

variable (lam mu : ℚ)

lemma avg_succ_le (m : ℕ) (hl : 0 < lam) (hm : 0 < mu) (h1 : 1 ≤ m)
    (hst : lam < m * mu) :
    avgRespTime_MMC lam mu (m + 1) ≤ avgRespTime_MMC lam mu m := by
  have hst' : lam < ((m + 1 : ℕ):ℚ) * mu := by
    push_cast
    nlinarith
  rw [avg_eq_W lam mu m hl hm h1 hst, avg_eq_W lam mu (m + 1) hl hm (by omega) hst']
  have hPm := Pm_succ_le lam mu m hl hm h1 hst
  have hPpos := Pm_pos lam mu m hl hm h1 hst
  have hd : (0:ℚ) < (m:ℚ) * mu - lam := by linarith
  have hd' : (m:ℚ) * mu - lam ≤ ((m + 1 : ℕ):ℚ) * mu - lam := by
    push_cast
    nlinarith
  have := div_le_div hPpos.le hPm hd hd'
  linarith

lemma avg_antitone (m m' : ℕ) (hl : 0 < lam) (hm : 0 < mu) (h1 : 1 ≤ m)
    (hst : lam < m * mu) (hmm : m ≤ m') :
    avgRespTime_MMC lam mu m' ≤ avgRespTime_MMC lam mu m := by
  induction m', hmm using Nat.le_induction with
  | base => exact le_rfl
  | succ n hn ih =>
    have h1n : 1 ≤ n := le_trans h1 hn
    have hstn : lam < (n:ℚ) * mu := by
      have hc : ((m:ℚ)) ≤ (n:ℚ) := by exact_mod_cast hn
      nlinarith
    exact le_trans (avg_succ_le lam mu n hl hm h1n hstn) ih

end mono4

/-- Claim C5: for fixed positive rates, the average response time is
non-increasing in the server count over the stable range. -/
theorem C5_avgRespTime_antitone (lam mu : ℚ) (m m' : ℕ)
    (hl : 0 < lam) (hm : 0 < mu) (h1 : 1 ≤ m)
    (hst : lam / (m * mu) < 1) (hmm : m < m') :
    avgRespTime_MMC lam mu m' ≤ avgRespTime_MMC lam mu m := by
  have hc : (0:ℚ) < (m:ℚ) := by
    have : (1:ℚ) ≤ (m:ℚ) := by exact_mod_cast h1
    linarith
  have hst' : lam < (m:ℚ) * mu := by
    rwa [div_lt_one (mul_pos hc hm)] at hst
  exact avg_antitone lam mu m m' hl hm h1 hst' (le_of_lt hmm)

/-- Witness for C5: `λ=1, μ=1`, `m=2 < m'=3`. -/
theorem C5_avgRespTime_antitone_witness :
    (0:ℚ) < 1 ∧ (1:ℚ) / ((2:ℕ) * (1:ℚ)) < 1 ∧ 2 < 3 ∧
      avgRespTime_MMC 1 1 3 ≤ avgRespTime_MMC 1 1 2 :=
  ⟨by norm_num, by norm_num, by norm_num,
    C5_avgRespTime_antitone 1 1 2 3 (by norm_num) (by norm_num) (by norm_num)
      (by norm_num) (by norm_num)⟩


lemma avg_gt_inv_mu (lam mu : ℚ) (m : ℕ) (hl : 0 < lam) (hm : 0 < mu)
    (h1 : 1 ≤ m) (hst : lam < m * mu) :
    1 / mu < avgRespTime_MMC lam mu m := by
  rw [avg_eq_W lam mu m hl hm h1 hst]
  have hPm := Pm_pos lam mu m hl hm h1 hst
  have hd : (0:ℚ) < (m:ℚ) * mu - lam := by linarith
  have := div_pos hPm hd
  linarith

lemma computeFrom_term (lam mu r tol : ℚ) :
    ∀ k m0 : ℕ, accepts lam mu r tol (m0 + k + 1) →
      ∃ m, computeFrom lam mu r tol (k + 1) m0 = some m := by
  intro k
  induction k with
  | zero =>
    intro m0 hacc
    simp only [Nat.add_zero] at hacc
    refine ⟨m0 + 1, ?_⟩
    rw [computeFrom, if_neg hacc.1, if_pos hacc.2]
  | succ k ih =>
    intro m0 hacc
    have hshift : m0 + 1 + k + 1 = m0 + (k + 1) + 1 := by omega
    rw [computeFrom]
    by_cases h1 : 1 ≤ lam / ((m0 + 1 : ℕ) * mu)
    · rw [if_pos h1]
      exact ih (m0 + 1) (hshift ▸ hacc)
    · rw [if_neg h1]
      by_cases h2 : float_le (avgRespTime_MMC lam mu (m0 + 1)) r tol
      · rw [if_pos h2]
        exact ⟨m0 + 1, rfl⟩
      · rw [if_neg h2]
        exact ih (m0 + 1) (hshift ▸ hacc)

/-- Claim C6 counterexample: at `λ=1, μ=1, r=1, tol=0` the feasibility
pre-check passes (`r = 1/μ ≥ 1/μ`), yet the loop never terminates: no
amount of fuel makes `compute` return, because every stable
configuration has average response time strictly above `1/μ = r` and
tolerance zero makes the acceptance test exact. -/
theorem C6_counterexample : ¬ ∃ fuel m, compute 1 1 1 0 fuel = some m := by
  rintro ⟨fuel, m, h⟩
  obtain ⟨h0, ⟨hstab, hacc⟩, -⟩ := computeFrom_sound 1 1 1 0 fuel 0 m h
  have hmq : (0:ℚ) < (m:ℚ) := by exact_mod_cast h0
  have hst : (1:ℚ) < (m:ℚ) * 1 := by
    by_contra hcon
    push_neg at hcon
    exact hstab (by rw [le_div_iff (by linarith : (0:ℚ) < (m:ℚ) * 1)]; linarith)
  have hgt := avg_gt_inv_mu 1 1 m (by norm_num) (by norm_num) h0 hst
  rw [float_le_zero_iff] at hacc
  norm_num at hgt
  linarith

/-- Claim C6 (amended: the boundary case `r = 1/μ` with `tol = 0` must
be excluded, and nothing else): for `r ≥ 1/μ` with `r > 1/μ` or
`tol > 0`, the capacity-search loop terminates, returning some finite
server count.  Only at `r = 1/μ` exactly with `tol = 0` — allowed by
the claim's `r ≥ 1/μ`, `tol ≥ 0` — can the loop run forever, see the
counterexample. -/
theorem C6_termination (lam mu r tol : ℚ) (hl : 0 < lam) (hm : 0 < mu)
    (htol : 0 ≤ tol) (hfeas : 1 / mu ≤ r) (hside : 1 / mu < r ∨ 0 < tol) :
    ∃ fuel m, compute lam mu r tol fuel = some m := by
  have hmuinv : (0:ℚ) < 1 / mu := by positivity
  have hr0 : 0 < r := lt_of_lt_of_le hmuinv hfeas
  set d : ℚ := (r - 1 / mu) + tol / mu with hd_def
  have hd : 0 < d := by
    rcases hside with h | h
    · have h2 : 0 ≤ tol / mu := by positivity
      rw [hd_def]
      linarith
    · have h2 : 0 < tol / mu := div_pos h hm
      rw [hd_def]
      linarith
  obtain ⟨N, hN⟩ := exists_nat_gt ((lam + 1 / d) / mu)
  have hNmu : lam + 1 / d < (N:ℚ) * mu := by
    rw [div_lt_iff hm] at hN
    linarith
  have hinv : 0 < 1 / d := by positivity
  have hN1 : 1 ≤ N := by
    by_contra hcon
    push_neg at hcon
    interval_cases N
    norm_num at hNmu
    rw [one_div] at hinv
    linarith
  have hstN : lam < (N:ℚ) * mu := by linarith
  have hNq : (0:ℚ) < (N:ℚ) := by exact_mod_cast hN1
  have haccN : accepts lam mu r tol N := by
    constructor
    · rw [not_le, div_lt_one (by positivity : (0:ℚ) < (N:ℚ) * mu)]
      exact hstN
    · have hval : avgRespTime_MMC lam mu N ≤ r + tol / mu := by
        rw [avg_eq_W lam mu N hl hm hN1 hstN]
        have hPm := Pm_le_one lam mu N hl hm hN1 hstN
        have hdenpos : (0:ℚ) < (N:ℚ) * mu - lam := by linarith
        have hgap : 1 / d < (N:ℚ) * mu - lam := by linarith
        have hb2 : 1 / ((N:ℚ) * mu - lam) < d := by
          have h2 := one_div_lt_one_div_of_lt hinv hgap
          rwa [one_div_one_div] at h2
        have hb1 : Pm lam mu N / ((N:ℚ) * mu - lam) ≤ 1 / ((N:ℚ) * mu - lam) :=
          (div_le_div_right hdenpos).mpr hPm
        rw [hd_def] at hb2
        linarith
      right
      have h2 : tol / mu ≤ r * tol := by
        calc tol / mu = (1 / mu) * tol := by ring
          _ ≤ r * tol := mul_le_mul_of_nonneg_right hfeas htol
      have h3 : r * tol ≤ max |avgRespTime_MMC lam mu N| |r| * tol := by
        apply mul_le_mul_of_nonneg_right _ htol
        calc r = |r| := (abs_of_pos hr0).symm
          _ ≤ max |avgRespTime_MMC lam mu N| |r| := le_max_right _ _
      linarith
  obtain ⟨m, hm'⟩ := computeFrom_term lam mu r tol (N - 1) 0
    (by rw [show 0 + (N - 1) + 1 = N from by omega]; exact haccN)
  exact ⟨N - 1 + 1, m, hm'⟩

/-- Witness for C6 amended: `λ=1, μ=1, r=1` is exactly the boundary
`r = 1/μ`, and with `tol = 1/2 > 0` the search terminates. -/
theorem C6_termination_witness :
    (0:ℚ) < 1 ∧ (0:ℚ) ≤ 1 / 2 ∧ (1:ℚ) / 1 ≤ 1 ∧
      ((1:ℚ) / 1 < 1 ∨ (0:ℚ) < 1 / 2) ∧
      (∃ fuel m, compute 1 1 1 (1 / 2) fuel = some m) :=
  ⟨by norm_num, by norm_num, by norm_num, Or.inr (by norm_num),
    C6_termination 1 1 1 (1 / 2) (by norm_num) (by norm_num) (by norm_num)
      (by norm_num) (Or.inr (by norm_num))⟩

lemma exp_mul_one_add_le_one (x : ℝ) (hx : 0 ≤ x) :
    Real.exp (-x) * (1 + x) ≤ 1 := by
  have h1 : 1 + x ≤ Real.exp x := by
    have := Real.add_one_le_exp x
    linarith
  calc Real.exp (-x) * (1 + x) ≤ Real.exp (-x) * Real.exp x :=
        mul_le_mul_of_nonneg_left h1 (Real.exp_pos _).le
    _ = 1 := by rw [← Real.exp_add, neg_add_cancel, Real.exp_zero]

lemma expMix_bounds (A B p q t : ℝ) (hAB : A + B = 1) (hA : 0 ≤ A)
    (hp : 0 < p) (hpq : p ≤ q) (ht : 0 ≤ t) (hB : -B * (q - p) ≤ p) :
    0 ≤ A * Real.exp (-(p * t)) + B * Real.exp (-(q * t)) ∧
      A * Real.exp (-(p * t)) + B * Real.exp (-(q * t)) ≤ 1 := by
  have hq : 0 < q := lt_of_lt_of_le hp hpq
  have he1pos : 0 < Real.exp (-(p * t)) := Real.exp_pos _
  have he2pos : 0 < Real.exp (-(q * t)) := Real.exp_pos _
  have he1le : Real.exp (-(p * t)) ≤ 1 :=
    Real.exp_le_one_iff.mpr (by nlinarith)
  have he2le : Real.exp (-(q * t)) ≤ 1 :=
    Real.exp_le_one_iff.mpr (by nlinarith)
  have hee : Real.exp (-(q * t)) ≤ Real.exp (-(p * t)) :=
    Real.exp_le_exp.mpr (by nlinarith)
  rcases le_or_lt 0 B with hB0 | hB0
  · constructor
    · positivity
    · nlinarith
  · have hA1 : 1 ≤ A := by linarith
    constructor
    · have hBe : B * Real.exp (-(p * t)) ≤ B * Real.exp (-(q * t)) :=
        mul_le_mul_of_nonpos_left hee hB0.le
      nlinarith
    · have hs : 0 ≤ (q - p) * t := mul_nonneg (by linarith) ht
      have hsplit : Real.exp (-(q * t))
          = Real.exp (-(p * t)) * Real.exp (-((q - p) * t)) := by
        rw [← Real.exp_add]
        ring_nf
      have h1s : 1 - (q - p) * t ≤ Real.exp (-((q - p) * t)) := by
        have := Real.add_one_le_exp (-((q - p) * t))
        linarith
      have hBe : B * Real.exp (-((q - p) * t)) ≤ B * (1 - (q - p) * t) :=
        mul_le_mul_of_nonpos_left h1s hB0.le
      have hBs : -B * ((q - p) * t) ≤ p * t := by
        have := mul_le_mul_of_nonneg_right hB ht
        nlinarith
      have hept := exp_mul_one_add_le_one (p * t) (by positivity)
      calc A * Real.exp (-(p * t)) + B * Real.exp (-(q * t))
          = Real.exp (-(p * t)) * (A + B * Real.exp (-((q - p) * t))) := by
            rw [hsplit]
            ring
        _ ≤ Real.exp (-(p * t)) * (1 + p * t) := by
            apply mul_le_mul_of_nonneg_left _ he1pos.le
            nlinarith
        _ ≤ 1 := hept

lemma pQueue_bounds {K : Type} [LinearOrderedField K] (lam mu : K) (c : ℕ)
    (hl : 0 < lam) (hm : 0 < mu) (h1 : 1 ≤ c) (hst : lam < c * mu) :
    0 < pQueue lam mu c ∧ pQueue lam mu c < 1 := by
  have hc0 : (0:K) < (c:K) := by
    have : (0:ℕ) < c := by omega
    exact_mod_cast this
  have ha : 0 < lam / mu := div_pos hl hm
  have hca : lam / mu < (c:K) := (div_lt_iff hm).mpr (by linarith)
  have hcap : (0:K) < (c:K) - lam / mu := by linarith
  have hFc : (0:K) < (c.factorial : K) := by exact_mod_cast c.factorial_pos
  have hmu : mu ≠ 0 := ne_of_gt hm
  have hcml : (c:K) * mu - lam ≠ 0 := ne_of_gt (by linarith)
  have hT : 0 < loopSum (fun x => (lam / mu) ^ x * (x.factorial : K)) c := by
    apply loopSum_pos _ _ c h1
    intro k
    have hkf : (0:K) < (k.factorial : K) := by exact_mod_cast k.factorial_pos
    positivity
  have hpre : 0 < (c:K) * (lam / mu) ^ c / ((c.factorial : K) * ((c:K) - lam / mu)) := by
    positivity
  have hid : 1 / (c.factorial : K) * (lam / mu) ^ c * (((c:K) * mu) / ((c:K) * mu - lam))
      = (c:K) * (lam / mu) ^ c / ((c.factorial : K) * ((c:K) - lam / mu)) := by
    field_simp
    ring
  simp only [pQueue, p0]
  rw [hid]
  set T := loopSum (fun x => (lam / mu) ^ x * (x.factorial : K)) c with hT_def
  set pre := (c:K) * (lam / mu) ^ c / ((c.factorial : K) * ((c:K) - lam / mu)) with hpre_def
  have hTP : 0 < T + pre := add_pos hT hpre
  have hfrac : pre * (1 / (T + pre)) = pre / (T + pre) := by ring
  rw [hfrac]
  have hlt : pre / (T + pre) < 1 := (div_lt_one hTP).mpr (by linarith)
  have hgt : 0 < pre / (T + pre) := div_pos hpre hTP
  constructor
  · linarith
  · linarith

/-- Claim C8 (amended): whenever the utilization `λ/(μm)` is outside
`(0,1)` the function returns exactly `some 0`; and wherever the code
does not divide by zero — that is, for `λ ≠ (m−1)μ` — it returns a
value, and that value lies in `[0,1]`. -/
theorem C8_cdf_guard_and_range (lam mu t : ℝ) (c : ℕ) (hl : 0 < lam)
    (hm : 0 < mu) (h1 : 1 ≤ c) (ht : 0 ≤ t) :
    ((lam / (mu * (c:ℝ)) ≤ 0 ∨ 1 ≤ lam / (mu * (c:ℝ))) →
        responseTimeCDF lam mu c t = some 0) ∧
      (lam ≠ ((c:ℝ) - 1) * mu →
        ∃ v, responseTimeCDF lam mu c t = some v ∧ 0 ≤ v ∧ v ≤ 1) := by
  have hc0 : (0:ℝ) < (c:ℝ) := by
    have : (0:ℕ) < c := by omega
    exact_mod_cast this
  have hmc : mu * (c:ℝ) ≠ 0 := ne_of_gt (mul_pos hm hc0)
  constructor
  · intro hrho
    simp only [responseTimeCDF]
    rw [if_neg hmc, if_pos hrho]
  · intro hne
    simp only [responseTimeCDF]
    rw [if_neg hmc]
    by_cases hrho : lam / (mu * (c:ℝ)) ≤ 0 ∨ 1 ≤ lam / (mu * (c:ℝ))
    · rw [if_pos hrho]
      exact ⟨0, rfl, le_refl 0, zero_le_one⟩
    · rw [if_neg hrho]
      push_neg at hrho
      obtain ⟨hr0, hr1⟩ := hrho
      have hd : lam - ((c:ℝ) - 1) * mu ≠ 0 := sub_ne_zero.mpr hne
      rw [if_neg hd]
      have hst : lam < (c:ℝ) * mu := by
        have h := (div_lt_one (mul_pos hm hc0)).mp hr1
        rw [mul_comm] at h
        exact h
      obtain ⟨hpq0, hpq1⟩ := pQueue_bounds lam mu c hl hm h1 hst
      set pQ := pQueue lam mu c with hpQ_def
      set dd := lam - ((c:ℝ) - 1) * mu with hdd_def
      set b := (c:ℝ) * mu - lam with hb_def
      have hb : 0 < b := by rw [hb_def]; linarith
      have hdb : dd = mu - b := by rw [hdd_def, hb_def]; ring
      set f1 := (lam - (c:ℝ) * mu + mu * pQ) / dd with hf1_def
      set f3 := (1 - pQ) * mu / dd with hf3_def
      have hsum : f1 + f3 = 1 := by
        rw [hf1_def, hf3_def, div_add_div_same, hdd_def]
        field_simp
        ring
      have hf1dd : f1 * dd = lam - (c:ℝ) * mu + mu * pQ :=
        div_mul_cancel₀ _ hd
      have hf3dd : f3 * dd = (1 - pQ) * mu :=
        div_mul_cancel₀ _ hd
      clear_value f1 f3
      have earg1 : -mu * t = -(mu * t) := by ring
      have earg2 : -b * t = -(b * t) := by ring
      rw [earg1, earg2]
      have hmix : 0 ≤ f1 * Real.exp (-(mu * t)) + f3 * Real.exp (-(b * t)) ∧
          f1 * Real.exp (-(mu * t)) + f3 * Real.exp (-(b * t)) ≤ 1 := by
        rcases lt_or_gt_of_ne hd with hdneg | hdpos
        · have hf3neg : f3 < 0 := by
            rw [hf3_def]
            exact div_neg_of_pos_of_neg (mul_pos (by linarith) hm) hdneg
          have hA : 0 ≤ f1 := by linarith
          have hpq : mu ≤ b := by linarith [hdb]
          have hBcond : -f3 * (b - mu) ≤ mu := by
            have h2 : -f3 * (b - mu) = f3 * dd := by rw [hdb]; ring
            rw [h2, hf3dd]
            nlinarith [mul_pos hm hpq0]
          exact expMix_bounds f1 f3 mu b t hsum hA hm hpq ht hBcond
        · have hA : 0 ≤ f3 := by
            rw [hf3_def]
            exact le_of_lt (div_pos (mul_pos (by linarith) hm) hdpos)
          have hpq : b ≤ mu := by linarith [hdb]
          have hBcond : -f1 * (mu - b) ≤ b := by
            have h2 : -f1 * (mu - b) = -(f1 * dd) := by rw [hdb]; ring
            rw [h2, hf1dd]
            have hbval : b = (c:ℝ) * mu - lam := hb_def
            nlinarith [mul_pos hm hpq0]
          have h := expMix_bounds f3 f1 b mu t (by linarith) hA hb hpq ht hBcond
          constructor
          · linarith [h.1]
          · linarith [h.2]
      have expand : f1 * (1 - Real.exp (-(mu * t))) + f3 * (1 - Real.exp (-(b * t)))
          = 1 - (f1 * Real.exp (-(mu * t)) + f3 * Real.exp (-(b * t))) := by
        linear_combination hsum
      refine ⟨_, rfl, ?_, ?_⟩
      · rw [expand]
        linarith [hmix.2]
      · rw [expand]
        linarith [hmix.1]

/-- Claim C8 counterexample: at `λ=1, μ=1, m=2, t=1` the utilization is
`ρ = 1/2 ∈ (0,1)`, yet the code divides by `λ - (m-1)μ = 0` and raises
`ZeroDivisionError` (modelled as `none`) instead of returning a value in
`[0,1]`. -/
theorem C8_counterexample : responseTimeCDF 1 1 2 1 = none := by
  simp only [responseTimeCDF]
  rw [if_neg (by norm_num : ¬((1:ℝ) * ((2:ℕ):ℝ) = 0))]
  rw [if_neg (by norm_num : ¬((1:ℝ) / (1 * ((2:ℕ):ℝ)) ≤ 0 ∨ 1 ≤ (1:ℝ) / (1 * ((2:ℕ):ℝ))))]
  rw [if_pos (by norm_num : (1:ℝ) - (((2:ℕ):ℝ) - 1) * 1 = 0)]

/-- Witness for C8's amended statement at `λ=3, μ=1, m=2, t=0`: the
utilization `ρ = 3/2` is outside `(0,1)`, so the guard conjunct applies
(the result is exactly `some 0`), and `λ = 3 ≠ (m−1)μ = 1`, so the
range conjunct applies as well. -/
theorem C8_cdf_guard_and_range_witness :
    (0:ℝ) < 3 ∧ (0:ℝ) < 1 ∧ 1 ≤ 2 ∧ (0:ℝ) ≤ 0 ∧
      ((((3:ℝ) / (1 * ((2:ℕ):ℝ)) ≤ 0 ∨ 1 ≤ (3:ℝ) / (1 * ((2:ℕ):ℝ))) →
          responseTimeCDF 3 1 2 0 = some 0) ∧
        ((3:ℝ) ≠ (((2:ℕ):ℝ) - 1) * 1 →
          ∃ v, responseTimeCDF 3 1 2 0 = some v ∧ 0 ≤ v ∧ v ≤ 1)) :=
  ⟨by norm_num, by norm_num, by norm_num, le_refl 0,
    C8_cdf_guard_and_range 3 1 0 2 (by norm_num) (by norm_num) (by norm_num)
      (le_refl 0)⟩
